import Mathlib

/-!
Verification of the `go-home-iot/connection-pool` repository.

The repository's visible source is `config.go` (the `Config` structure) and
`connection_pool_test.go` (the behavioural tests). The pool implementation
itself (`NewPool`, `Init`, `Get`, `Release`, `Close`, the `Connection`
handle) is not among the visible source files, so those operations are
modelled from the specification, as noted on each definition. `Config` is
embedded from `src/config.go`; the factory field `NewConnection` there has
type `func(Config) (net.Conn, error)`, i.e. it receives the configuration
and returns a connection or an error.

The model is a sequential state machine. Connections are identified by a
natural-number id handed out by a freshness counter; the factory's
behaviour is a function from the configuration and the invocation index to
success or failure (the tests drive factories by invocation count). Real
time is a logical clock: waiting advances it by the amount waited, per the
specification's timing contract. The unbounded retry loops are given
explicit fuel; theorems quantify over sufficient fuel, which captures
"retries indefinitely, no maximum retry count".
-/

namespace Pool

/-- Embedded from `src/config.go`: the configuration parameters of the
connection pool. The Go field `NewConnection func(Config) (net.Conn, error)`
is a function value; its behaviour is modelled separately as `Factory`
(a structure cannot contain a function consuming the structure itself),
and the state records every argument the pool passes to it. -/
structure Config where
  Name : String
  Size : Nat
  Address : String
  RetryDuration : Nat
deriving Repr, DecidableEq

/-- Modelled from the spec: the connection handle — a wrapper around one
opaque transport connection (identified here by `connId`, the creation
index of the underlying connection) with a caller-settable flag `IsBad`
(the test writes `c1.IsBad = true`). -/
structure Connection where
  connId : Nat
  IsBad : Bool
deriving Repr, DecidableEq

/-- The behaviour of the configured factory `NewConnection`: given the
`Config` argument the pool passes (per `src/config.go` the factory receives
the configuration) and the invocation index, does this invocation succeed?
On success the pool wraps a fresh underlying connection. -/
def Factory : Type := Config → Nat → Bool

/-- Errors returned by `Get`. -/
inductive GetError where
  | ErrTimeout : GetError
  | FactoryFailed : GetError
deriving Repr, DecidableEq

/-- Modelled from the spec: the mutable pool state. `slots` is the bounded
container of available handles. `borrowed` records the underlying-connection
ids of handles currently held by callers and `odBorrowed` those of the
over-capacity on-demand handles — bookkeeping the specification describes as
implicit (the borrowed count is derived, not stored), kept here as ghost
state so the invariants can be stated; a caller may flip `IsBad` on its
borrowed handle, so a handle's identity is its underlying connection id.
`pending` is the number of bad-connection replacements in flight; `calls`
the number of factory invocations so far and `callArgs` the `Config`
argument passed at each invocation; `nextId` the freshness counter for
underlying connections; `closedConns` the ids of underlying connections
closed so far, with multiplicity; `now` a logical clock. -/
structure PoolState where
  calls : Nat
  callArgs : List Config
  nextId : Nat
  slots : List Connection
  borrowed : List Nat
  odBorrowed : List Nat
  pending : Nat
  closedConns : List Nat
  poolClosed : Bool
  now : Nat
  Config : Config
deriving Repr, DecidableEq

/-- Modelled from the spec: `NewPool(config)` returns a pool in an
unstarted state and performs no I/O. -/
def NewPool (cfg : Config) : PoolState :=
  { Config := cfg
    calls := 0
    callArgs := []
    nextId := 0
    slots := []
    borrowed := []
    odBorrowed := []
    pending := 0
    closedConns := []
    poolClosed := false
    now := 0 }

/-- Modelled from the spec: one invocation of the factory. The pool passes
its `Config` as the argument (recorded in `callArgs`). On success a fresh
handle with `IsBad = false` wraps a new underlying connection; on failure
the retry loop sleeps for `RetryDuration`. -/
def callFactory (f : Factory) (s : PoolState) : Option Connection × PoolState :=
  let ok := f s.Config s.calls
  let s' := { s with calls := s.calls + 1, callArgs := s.callArgs ++ [s.Config] }
  if ok then
    (some ⟨s.nextId, false⟩, { s' with nextId := s.nextId + 1 })
  else
    (none, { s' with now := s'.now + s.Config.RetryDuration })

/-- Modelled from the spec: create one connection with unbounded retry —
invoke the factory, and on failure wait `RetryDuration` and retry the same
slot, until it succeeds. The unbounded loop is given explicit fuel; `none`
means the loop is still running after `fuel` attempts. -/
def createWithRetry (f : Factory) (fuel : Nat) (s : PoolState) :
    Option Connection × PoolState :=
  match fuel with
  | 0 => (none, s)
  | fuel + 1 =>
    match callFactory f s with
    | (some c, s') => (some c, s')
    | (none, s') => createWithRetry f fuel s'

/-- Modelled from the spec: populate `n` slots, each by
create-with-unbounded-retry, appending each obtained handle to `slots`. -/
def initSlots (f : Factory) (fuel : Nat) (n : Nat) (s : PoolState) :
    Option PoolState :=
  match n with
  | 0 => some s
  | n + 1 =>
    match createWithRetry f fuel s with
    | (some c, s') => initSlots f fuel n { s' with slots := s'.slots ++ [c] }
    | (none, _) => none

/-- Modelled from the spec: `Init` populates the pool up to the configured
size. A `some` result is the state at the moment the completion signal
fires — exactly when all `Size` slots hold a connection; `none` means
population is still retrying after `fuel` attempts per slot. -/
def Init (f : Factory) (fuel : Nat) (s : PoolState) : Option PoolState :=
  initSlots f fuel s.Config.Size s

/-- Modelled from the spec: `Get(timeout, onDemand)`. If a handle is
available it is removed from slots and becomes borrowed. Otherwise, with
`onDemand` unset, the call waits the full `timeout` (the logical clock
advances by it) and returns the `ErrTimeout` sentinel with no handle and no
other side effect; with `onDemand` set, the factory is invoked synchronously
to mint an over-capacity handle, and its failure is surfaced to the
caller. -/
def Get (f : Factory) (timeout : Nat) (onDemand : Bool) (s : PoolState) :
    Option Connection × Option GetError × PoolState :=
  match s.slots with
  | c :: rest =>
    (some c, none, { s with slots := rest, borrowed := s.borrowed ++ [c.connId] })
  | [] =>
    if onDemand then
      match callFactory f s with
      | (some c, s') =>
        (some c, none, { s' with odBorrowed := s'.odBorrowed ++ [c.connId] })
      | (none, s') => (none, some GetError.FactoryFailed, s')
    else
      (none, some GetError.ErrTimeout, { s with now := s.now + timeout })

/-- Modelled from the spec: `Release(handle)`. An over-capacity on-demand
handle is always closed rather than inserted into slots. Otherwise, a
handle with `IsBad = true` has its underlying connection closed, is
discarded, and an asynchronous replacement begins (`pending` increases;
`Release` itself returns immediately); a handle with `IsBad = false` is
placed back into slots unchanged. -/
def Release (h : Connection) (s : PoolState) : PoolState :=
  if h.connId ∈ s.odBorrowed then
    { s with odBorrowed := s.odBorrowed.erase h.connId
             closedConns := s.closedConns ++ [h.connId] }
  else if h.IsBad then
    { s with borrowed := s.borrowed.erase h.connId
             closedConns := s.closedConns ++ [h.connId]
             pending := s.pending + 1 }
  else
    { s with borrowed := s.borrowed.erase h.connId
             slots := s.slots ++ [h] }

/-- Modelled from the spec: one in-flight replacement running in the
background to completion — the same create-with-unbounded-retry sequence as
population, inserting the fresh handle into slots, without gating any
external signal. If the fuel runs out the replacement is still in
flight. -/
def replaceStep (f : Factory) (fuel : Nat) (s : PoolState) : PoolState :=
  if s.pending = 0 then s
  else
    match createWithRetry f fuel s with
    | (some c, s') => { s' with pending := s'.pending - 1, slots := s'.slots ++ [c] }
    | (none, s') => s'

/-- Modelled from the spec: `Close` transitions the pool to the closed
state, closing every handle currently sitting in slots exactly once,
invoking no factory; the returned state is at the moment the completion
signal fires. -/
def Close (s : PoolState) : PoolState :=
  { s with slots := []
           closedConns := s.closedConns ++ s.slots.map Connection.connId
           poolClosed := true }

/-- One observable transition of the pool: any `Get`, `Release`, completed
or attempted background replacement, `Close`, or a completed `Init`.
`Release` is restricted to handles actually outstanding, since the
specification leaves releasing an untracked handle, or double-releasing,
undefined by contract. -/
inductive Step (f : Factory) : PoolState → PoolState → Prop where
  | get : ∀ t od s, Step f s (Get f t od s).2.2
  | release : ∀ h s, h.connId ∈ s.borrowed ∨ h.connId ∈ s.odBorrowed →
      Step f s (Release h s)
  | replace : ∀ fuel s, Step f s (replaceStep f fuel s)
  | close : ∀ s, Step f s (Close s)
  | init : ∀ fuel s s', Init f fuel s = some s' → Step f s s'

/-- Reachability by any sequence of pool operations. -/
def Steps (f : Factory) : PoolState → PoolState → Prop :=
  Relation.ReflTransGen (Step f)

/-- All underlying-connection ids the pool currently tracks as live:
available in slots, borrowed by callers, or borrowed over capacity. -/
def poolIds (s : PoolState) : List Nat :=
  s.slots.map Connection.connId ++ s.borrowed ++ s.odBorrowed

/-- Well-formedness of a pool state: no underlying connection is tracked
twice (in particular, never both in slots and borrowed), every tracked id
is below the freshness counter, and no handle sitting in slots is marked
bad. -/
def Inv (s : PoolState) : Prop :=
  (poolIds s).Nodup ∧ (∀ i ∈ poolIds s, i < s.nextId) ∧
    (∀ h ∈ s.slots, h.IsBad = false)

/-- Handles in slots, plus handles borrowed from slots, plus handles lost
to in-flight replacement. -/
def capacity (s : PoolState) : Nat :=
  s.slots.length + s.borrowed.length + s.pending

/-- An underlying connection the pool has discarded for good: no tracked
handle carries its id and the freshness counter is past it, so no future
handle can carry it either. -/
def Dead (h : Connection) (s : PoolState) : Prop :=
  (∀ i ∈ poolIds s, i ≠ h.connId) ∧ h.connId < s.nextId

/-- `n` sequential `Get` calls with `onDemand` unset, collecting each
call's handle/error outcome. -/
def getSeq (f : Factory) (timeout : Nat) (n : Nat) (s : PoolState) :
    List (Option Connection × Option GetError) × PoolState :=
  match n with
  | 0 => ([], s)
  | n + 1 =>
    let r := Get f timeout false s
    let rest := getSeq f timeout n r.2.2
    ((r.1, r.2.1) :: rest.1, rest.2)

/-- Every argument the pool has passed to the factory so far equals the
configuration `cfg` the pool was built from, one argument recorded per
invocation, and the pool still stores `cfg`. -/
def ArgsOK (cfg : Config) (s : PoolState) : Prop :=
  s.Config = cfg ∧ s.callArgs.length = s.calls ∧ ∀ a ∈ s.callArgs, a = cfg

/-- A factory that always succeeds, as in most of the repository's tests. -/
def fTrueW : Factory := fun _ _ => true

/-- A concrete size-3 configuration, as in the timeout test. -/
def cfgW3 : Config := ⟨"pool", 3, "127.0.0.1:4999", 2⟩

/-- The size-3 pool state at the moment `Init` completes. -/
def s0W3 : PoolState :=
  { calls := 3
    callArgs := [cfgW3, cfgW3, cfgW3]
    nextId := 3
    slots := [⟨0, false⟩, ⟨1, false⟩, ⟨2, false⟩]
    borrowed := []
    odBorrowed := []
    pending := 0
    closedConns := []
    poolClosed := false
    now := 0
    Config := cfgW3 }

/-- A concrete size-1 configuration, as in the round-trip test. -/
def cfgW1 : Config := ⟨"pool", 1, "127.0.0.1:4999", 2⟩

/-- The size-1 pool state at the moment `Init` completes. -/
def s0W1 : PoolState :=
  { calls := 1
    callArgs := [cfgW1]
    nextId := 1
    slots := [⟨0, false⟩]
    borrowed := []
    odBorrowed := []
    pending := 0
    closedConns := []
    poolClosed := false
    now := 0
    Config := cfgW1 }

/-- The size-1 pool state after `Init` and one `Get`: the only handle is
borrowed. -/
def s1W1 : PoolState :=
  { calls := 1
    callArgs := [cfgW1]
    nextId := 1
    slots := []
    borrowed := [0]
    odBorrowed := []
    pending := 0
    closedConns := []
    poolClosed := false
    now := 0
    Config := cfgW1 }

/-! ### Basic lemmas about the factory call and the retry loop -/

theorem callFactory_true (f : Factory) (s : PoolState)
    (h : f s.Config s.calls = true) :
    callFactory f s = (some ⟨s.nextId, false⟩,
      { s with calls := s.calls + 1
               callArgs := s.callArgs ++ [s.Config]
               nextId := s.nextId + 1 }) := by
  simp [callFactory, h]

theorem callFactory_false (f : Factory) (s : PoolState)
    (h : f s.Config s.calls = false) :
    callFactory f s = (none,
      { s with calls := s.calls + 1
               callArgs := s.callArgs ++ [s.Config]
               now := s.now + s.Config.RetryDuration }) := by
  simp [callFactory, h]

/-- The retry loop touches only `calls`, `callArgs`, `nextId` and `now`:
slots, the borrow bookkeeping, the close record, the closed flag and the
configuration are untouched, and `calls` and `nextId` only grow. -/
theorem createWithRetry_frame (f : Factory) (fuel : Nat) (s : PoolState) :
    (createWithRetry f fuel s).2.slots = s.slots ∧
    (createWithRetry f fuel s).2.borrowed = s.borrowed ∧
    (createWithRetry f fuel s).2.odBorrowed = s.odBorrowed ∧
    (createWithRetry f fuel s).2.pending = s.pending ∧
    (createWithRetry f fuel s).2.closedConns = s.closedConns ∧
    (createWithRetry f fuel s).2.poolClosed = s.poolClosed ∧
    (createWithRetry f fuel s).2.Config = s.Config ∧
    s.nextId ≤ (createWithRetry f fuel s).2.nextId ∧
    s.calls ≤ (createWithRetry f fuel s).2.calls := by
  induction fuel generalizing s with
  | zero => simp [createWithRetry]
  | succ n ih =>
    rcases h : f s.Config s.calls with _ | _
    · rw [createWithRetry, callFactory_false f s h]
      obtain ⟨h1, h2, h3, h4, h5, h6, h7, h8, h9⟩ :=
        ih { s with calls := s.calls + 1
                    callArgs := s.callArgs ++ [s.Config]
                    now := s.now + s.Config.RetryDuration }
      exact ⟨h1, h2, h3, h4, h5, h6, h7, h8, Nat.le_of_succ_le h9⟩
    · rw [createWithRetry, callFactory_true f s h]
      simp

/-- A handle produced by the retry loop is fresh: it is not marked bad,
its id is at least the freshness counter before the loop, and the counter
afterwards is just past it. -/
theorem createWithRetry_some (f : Factory) (fuel : Nat) (s : PoolState)
    (c : Connection) (h : (createWithRetry f fuel s).1 = some c) :
    c.IsBad = false ∧ s.nextId ≤ c.connId ∧
    (createWithRetry f fuel s).2.nextId = c.connId + 1 ∧
    s.calls < (createWithRetry f fuel s).2.calls := by
  induction fuel generalizing s with
  | zero => simp [createWithRetry] at h
  | succ n ih =>
    rcases hf : f s.Config s.calls with _ | _
    · rw [createWithRetry, callFactory_false f s hf] at h ⊢
      have := ih _ h
      simp at this
      simpa using ⟨this.1, this.2.1, this.2.2.1, by omega⟩
    · rw [createWithRetry, callFactory_true f s hf] at h ⊢
      simp at h
      subst h
      simp

/-- If the factory fails on the first `k` invocation indices from the
current count and succeeds on the next, the retry loop performs exactly
`k + 1` invocations, waits `RetryDuration` after each of the `k` failures,
and hands out the handle wrapping the fresh connection. -/
theorem createWithRetry_firstSuccess (f : Factory) (k : Nat) :
    ∀ fuel s, (∀ i, i < k → f s.Config (s.calls + i) = false) →
    f s.Config (s.calls + k) = true → k + 1 ≤ fuel →
    createWithRetry f fuel s = (some ⟨s.nextId, false⟩,
      { s with calls := s.calls + k + 1
               callArgs := s.callArgs ++ List.replicate (k + 1) s.Config
               nextId := s.nextId + 1
               now := s.now + k * s.Config.RetryDuration }) := by
  induction k with
  | zero =>
    intro fuel s _ hsucc hfuel
    obtain ⟨m, rfl⟩ : ∃ m, fuel = m + 1 := ⟨fuel - 1, by omega⟩
    rw [createWithRetry, callFactory_true f s (by simpa using hsucc)]
    simp
  | succ k ih =>
    intro fuel s hfail hsucc hfuel
    obtain ⟨m, rfl⟩ : ∃ m, fuel = m + 1 := ⟨fuel - 1, by omega⟩
    have h0 : f s.Config s.calls = false := by simpa using hfail 0 (by omega)
    rw [createWithRetry, callFactory_false f s h0]
    dsimp only
    rw [ih m { s with calls := s.calls + 1
                      callArgs := s.callArgs ++ [s.Config]
                      now := s.now + s.Config.RetryDuration }
        (by intro i hi; simpa [Nat.add_assoc, Nat.add_comm 1 i] using hfail (i + 1) (by omega))
        (by simpa [Nat.add_assoc, Nat.add_comm 1 k] using hsucc)
        (by omega)]
    have harg : s.callArgs ++ [s.Config] ++ List.replicate (k + 1) s.Config
        = s.callArgs ++ List.replicate (k + 1 + 1) s.Config := by
      rw [List.append_assoc]
      congr 1
    simp only [Prod.mk.injEq, PoolState.mk.injEq, and_true, true_and]
    refine ⟨by omega, harg, ?_⟩
    ring

/-- If the factory fails on every invocation index the fuel allows, the
retry loop is still running: no handle has been produced. -/
theorem createWithRetry_allFail (f : Factory) :
    ∀ fuel s, (∀ i, i < fuel → f s.Config (s.calls + i) = false) →
    (createWithRetry f fuel s).1 = none := by
  intro fuel
  induction fuel with
  | zero => intro s _; simp [createWithRetry]
  | succ n ih =>
    intro s hfail
    have h0 : f s.Config s.calls = false := by simpa using hfail 0 (by omega)
    rw [createWithRetry, callFactory_false f s h0]
    exact ih _ (by intro i hi; simpa [Nat.add_assoc, Nat.add_comm 1 i] using hfail (i + 1) (by omega))

/-- Population with an always-succeeding factory: each of the `n` slots is
filled at the first attempt, consuming one invocation and one fresh id per
slot, and appending the handles in creation order. -/
theorem initSlots_alwaysTrue (f : Factory) (hf : ∀ c i, f c i = true)
    (fuel : Nat) (hfuel : 1 ≤ fuel) (n : Nat) :
    ∀ s, initSlots f fuel n s = some
      { s with calls := s.calls + n
               callArgs := s.callArgs ++ List.replicate n s.Config
               nextId := s.nextId + n
               slots := s.slots ++ (List.range n).map
                 (fun i => Connection.mk (s.nextId + i) false) } := by
  induction n with
  | zero => intro s; simp [initSlots]
  | succ n ih =>
    intro s
    rw [initSlots, createWithRetry_firstSuccess f 0 fuel s
      (by intro i hi; omega) (by simpa using hf s.Config s.calls) (by omega)]
    dsimp only
    rw [ih]
    simp only [Option.some.injEq, PoolState.mk.injEq, and_true, true_and]
    refine ⟨by omega, ?_, by omega, ?_, by omega⟩
    · rw [List.append_assoc, ← List.replicate_add]
      have h1 : 0 + 1 + n = n + 1 := by omega
      rw [h1]
    · rw [List.append_assoc]
      congr 1
      rw [List.range_succ_eq_map, List.map_cons, List.map_map, List.singleton_append]
      refine List.cons_eq_cons.mpr ⟨by simp, List.map_congr_left fun i hi => ?_⟩
      simp only [Function.comp_apply, Connection.mk.injEq, and_true]
      omega


theorem append_shift_perm {α : Type} (l₁ l₂ l₃ : List α) (x : α) :
    List.Perm ((l₁ ++ (l₂ ++ [x])) ++ l₃) (x :: ((l₁ ++ l₂) ++ l₃)) := by
  have h1 : (l₁ ++ (l₂ ++ [x])) ++ l₃ = (l₁ ++ l₂) ++ (x :: l₃) := by simp
  have h2 : x :: ((l₁ ++ l₂) ++ l₃) = x :: ((l₁ ++ l₂) ++ l₃) := rfl
  rw [h1]
  exact List.perm_middle

theorem append_slot_perm {α : Type} (l₁ l₂ l₃ : List α) (x : α) :
    List.Perm (((l₁ ++ [x]) ++ l₂) ++ l₃) (x :: ((l₁ ++ l₂) ++ l₃)) := by
  have h1 : ((l₁ ++ [x]) ++ l₂) ++ l₃ = l₁ ++ x :: (l₂ ++ l₃) := by simp
  have h2 : x :: ((l₁ ++ l₂) ++ l₃) = x :: (l₁ ++ (l₂ ++ l₃)) := by simp
  rw [h1, h2]
  exact List.perm_middle

theorem Inv_Get (f : Factory) (t : Nat) (od : Bool) (s : PoolState)
    (hinv : Inv s) : Inv (Get f t od s).2.2 := by
  obtain ⟨hnd, hlt, hgood⟩ := hinv
  rcases hs : s.slots with _ | ⟨c, rest⟩
  · rcases od with _ | _
    · simp only [Get, hs, Bool.false_eq_true, if_false]
      refine ⟨?_, ?_, ?_⟩
      · simpa [poolIds, hs] using hnd
      · simpa [poolIds, hs] using hlt
      · simp [hs]
    · simp only [Get, hs, if_true]
      rcases hcall : f s.Config s.calls with _ | _
      · rw [callFactory_false f s hcall]
        refine ⟨?_, ?_, ?_⟩
        · simpa [poolIds, hs] using hnd
        · simpa [poolIds, hs] using hlt
        · exact hgood
      · rw [callFactory_true f s hcall]
        dsimp only
        refine ⟨?_, ?_, ?_⟩
        · simp only [poolIds, hs] at hnd hlt ⊢
          simp only [List.map_nil, List.nil_append] at hnd hlt ⊢
          rw [← List.append_assoc]
          rw [List.nodup_append]
          refine ⟨hnd, List.nodup_singleton _, ?_⟩
          intro x hx hmem
          simp at hmem
          subst hmem
          exact absurd (hlt _ hx) (by omega)
        · intro i hi
          have hsplit : i ∈ poolIds s ∨ i = s.nextId := by
            simp only [poolIds, hs, List.map_nil, List.nil_append, List.mem_append,
              List.mem_singleton] at hi ⊢
            tauto
          rcases hsplit with hmem | rfl
          · exact Nat.lt_succ_of_lt (hlt i hmem)
          · exact Nat.lt_succ_self _
        · exact hgood
  · simp only [Get, hs]
    refine ⟨?_, ?_, ?_⟩
    · simp only [poolIds, hs, List.map_cons, List.cons_append] at hnd
      simp only [poolIds]
      exact ((append_shift_perm (rest.map Connection.connId) s.borrowed
        s.odBorrowed c.connId).nodup_iff).mpr (by simpa using hnd)
    · intro i hi
      apply hlt
      simp only [poolIds, hs, List.map_cons, List.cons_append, List.mem_cons,
        List.mem_append, List.mem_singleton] at hi ⊢
      tauto
    · intro x hx
      refine hgood x ?_
      rw [hs]
      exact List.mem_cons_of_mem _ (by simpa using hx)


theorem Inv_Release (h : Connection) (s : PoolState)
    (hmem : h.connId ∈ s.borrowed ∨ h.connId ∈ s.odBorrowed)
    (hinv : Inv s) : Inv (Release h s) := by
  obtain ⟨hnd, hlt, hgood⟩ := hinv
  by_cases hod : h.connId ∈ s.odBorrowed
  · simp only [Release, if_pos hod]
    have hsub : (poolIds { s with odBorrowed := s.odBorrowed.erase h.connId
                                  closedConns := s.closedConns ++ [h.connId] }).Sublist
        (poolIds s) := by
      simp only [poolIds]
      exact (List.append_sublist_append_left _).mpr (List.erase_sublist _ _)
    refine ⟨hnd.sublist hsub, fun i hi => hlt i (hsub.mem hi), hgood⟩
  · have hb : h.connId ∈ s.borrowed := hmem.resolve_right hod
    by_cases hbad : h.IsBad
    · simp only [Release, if_neg hod, if_pos hbad]
      have hsub : (poolIds { s with borrowed := s.borrowed.erase h.connId
                                    closedConns := s.closedConns ++ [h.connId]
                                    pending := s.pending + 1 }).Sublist (poolIds s) := by
        simp only [poolIds]
        exact List.Sublist.append_right
          ((List.append_sublist_append_left _).mpr (List.erase_sublist _ _)) _
      refine ⟨hnd.sublist hsub, fun i hi => hlt i (hsub.mem hi), hgood⟩
    · simp only [Release, if_neg hod, if_neg hbad]
      have hperm1 : (poolIds s).Perm
          (h.connId :: ((s.slots.map Connection.connId ++ s.borrowed.erase h.connId)
            ++ s.odBorrowed)) := by
        have hbp : s.borrowed.Perm (h.connId :: s.borrowed.erase h.connId) :=
          List.perm_cons_erase hb
        have step1 : (poolIds s).Perm
            ((s.slots.map Connection.connId ++ (h.connId :: s.borrowed.erase h.connId))
              ++ s.odBorrowed) := by
          exact List.Perm.append_right _ (List.Perm.append_left _ hbp)
        refine step1.trans ?_
        have h1 : (s.slots.map Connection.connId ++ (h.connId :: s.borrowed.erase h.connId))
            ++ s.odBorrowed
            = s.slots.map Connection.connId
              ++ h.connId :: (s.borrowed.erase h.connId ++ s.odBorrowed) := by simp
        have h2 : h.connId :: ((s.slots.map Connection.connId ++ s.borrowed.erase h.connId)
            ++ s.odBorrowed)
            = h.connId :: (s.slots.map Connection.connId
              ++ (s.borrowed.erase h.connId ++ s.odBorrowed)) := by simp
        rw [h1, h2]
        exact List.perm_middle
      have hperm2 := append_slot_perm (s.slots.map Connection.connId)
        (s.borrowed.erase h.connId) s.odBorrowed h.connId
      refine ⟨?_, ?_, ?_⟩
      · simp only [poolIds, List.map_append, List.map_cons, List.map_nil]
        exact hperm2.symm.nodup (hperm1.nodup hnd)
      · intro i hi
        apply hlt
        have hmem2 : i ∈ h.connId :: ((s.slots.map Connection.connId
            ++ s.borrowed.erase h.connId) ++ s.odBorrowed) := by
          refine hperm2.mem_iff.mp ?_
          simpa [poolIds] using hi
        exact hperm1.mem_iff.mpr hmem2
      · intro x hx
        rcases (by simpa using hx : x ∈ s.slots ∨ x = h) with h1 | rfl
        · exact hgood x h1
        · simpa using hbad


theorem Inv_insert_fresh (s : PoolState) (c : Connection) (s₂ : PoolState)
    (hs : s₂.slots = s.slots ++ [c]) (hb : s₂.borrowed = s.borrowed)
    (ho : s₂.odBorrowed = s.odBorrowed) (hn : c.connId < s₂.nextId)
    (hfresh : s.nextId ≤ c.connId) (hbad : c.IsBad = false)
    (hinv : Inv s) : Inv s₂ := by
  obtain ⟨hnd, hlt, hgood⟩ := hinv
  have hperm : (poolIds s₂).Perm (c.connId :: poolIds s) := by
    simp only [poolIds, hs, hb, ho, List.map_append, List.map_cons, List.map_nil]
    exact append_slot_perm _ _ _ _
  refine ⟨?_, ?_, ?_⟩
  · refine hperm.symm.nodup ?_
    rw [List.nodup_cons]
    exact ⟨fun hmem => absurd (hlt _ hmem) (by omega), hnd⟩
  · intro i hi
    rcases List.mem_cons.mp (hperm.mem_iff.mp hi) with rfl | hmem
    · exact hn
    · exact lt_of_lt_of_le (hlt i hmem) (by omega)
  · intro x hx
    rw [hs] at hx
    rcases (by simpa using hx : x ∈ s.slots ∨ x = c) with h1 | rfl
    · exact hgood x h1
    · exact hbad

theorem Inv_replaceStep (f : Factory) (fuel : Nat) (s : PoolState)
    (hinv : Inv s) : Inv (replaceStep f fuel s) := by
  by_cases hp : s.pending = 0
  · simpa [replaceStep, hp] using hinv
  · obtain ⟨hnd, hlt, hgood⟩ := hinv
    simp only [replaceStep, if_neg hp]
    have hfr := createWithRetry_frame f fuel s
    rcases hcr : (createWithRetry f fuel s) with ⟨r, s₁⟩
    simp only [hcr] at hfr
    obtain ⟨f1, f2, f3, f4, f5, f6, f7, f8, f9⟩ := hfr
    rcases r with _ | c
    · exact ⟨by simpa [poolIds, f1, f2, f3] using hnd,
        by intro i hi
           have : i ∈ poolIds s := by simpa [poolIds, f1, f2, f3] using hi
           exact lt_of_lt_of_le (hlt i this) f8,
        by rw [f1]; exact hgood⟩
    · have hsome := createWithRetry_some f fuel s c (by rw [hcr])
      simp only [hcr] at hsome
      obtain ⟨c1, c2, c3, c4⟩ := hsome
      refine Inv_insert_fresh s c _ (by simp [f1]) (by simp [f2]) (by simp [f3])
        (by simp [c3]) c2 c1 ⟨hnd, hlt, hgood⟩

theorem Inv_Close (s : PoolState) (hinv : Inv s) : Inv (Close s) := by
  obtain ⟨hnd, hlt, hgood⟩ := hinv
  have hsub : (poolIds (Close s)).Sublist (poolIds s) := by
    simp only [poolIds, Close, List.map_nil, List.nil_append]
    exact List.Sublist.append_right (List.sublist_append_right _ _) _
  exact ⟨hnd.sublist hsub, fun i hi => hlt i (hsub.mem hi), by simp [Close]⟩

theorem initSlots_Inv (f : Factory) (fuel : Nat) (n : Nat) :
    ∀ s s', initSlots f fuel n s = some s' → Inv s → Inv s' := by
  induction n with
  | zero =>
    intro s s' hi hinv
    simp only [initSlots, Option.some.injEq] at hi
    rw [← hi]
    exact hinv
  | succ n ih =>
    intro s s' hi hinv
    rw [initSlots] at hi
    have hfr := createWithRetry_frame f fuel s
    rcases hcr : (createWithRetry f fuel s) with ⟨r, s₁⟩
    simp only [hcr] at hfr
    obtain ⟨f1, f2, f3, f4, f5, f6, f7, f8, f9⟩ := hfr
    rw [hcr] at hi
    rcases r with _ | c
    · simp at hi
    · have hsome := createWithRetry_some f fuel s c (by rw [hcr])
      simp only [hcr] at hsome
      obtain ⟨c1, c2, c3, c4⟩ := hsome
      dsimp only at hi
      refine ih _ _ hi ?_
      refine Inv_insert_fresh s c _ (by simp [f1]) (by simp [f2]) (by simp [f3])
        (by simp [c3]) c2 c1 hinv

theorem Inv_NewPool (cfg : Config) : Inv (NewPool cfg) := by
  refine ⟨?_, ?_, ?_⟩ <;> simp [poolIds, NewPool]

theorem step_preserves_Inv (f : Factory) (s s' : PoolState)
    (hstep : Step f s s') (hinv : Inv s) : Inv s' := by
  cases hstep with
  | get t od s => exact Inv_Get f t od s hinv
  | release h s hmem => exact Inv_Release h s hmem hinv
  | replace fuel s => exact Inv_replaceStep f fuel s hinv
  | close s => exact Inv_Close s hinv
  | init fuel s s' hi => exact initSlots_Inv f fuel s.Config.Size s s' hi hinv

theorem steps_preserves_Inv (f : Factory) (s s' : PoolState)
    (hsteps : Steps f s s') (hinv : Inv s) : Inv s' := by
  induction hsteps with
  | refl => exact hinv
  | tail _ hstep ih => exact step_preserves_Inv f _ _ hstep ih

theorem reachable_Inv (f : Factory) (cfg : Config) (s : PoolState)
    (hsteps : Steps f (NewPool cfg) s) : Inv s :=
  steps_preserves_Inv f _ s hsteps (Inv_NewPool cfg)

/-- Population touches only `calls`, `callArgs`, `nextId`, `now` and
`slots`; when it completes it has appended exactly `n` handles. -/
theorem initSlots_frame (f : Factory) (fuel : Nat) (n : Nat) :
    ∀ s s', initSlots f fuel n s = some s' →
    s'.borrowed = s.borrowed ∧
    s'.odBorrowed = s.odBorrowed ∧
    s'.pending = s.pending ∧
    s'.closedConns = s.closedConns ∧
    s'.poolClosed = s.poolClosed ∧
    s'.Config = s.Config ∧
    s.nextId ≤ s'.nextId ∧
    s.calls ≤ s'.calls ∧
    s'.slots.length = s.slots.length + n := by
  induction n with
  | zero =>
    intro s s' hi
    simp only [initSlots, Option.some.injEq] at hi
    rw [← hi]
    simp
  | succ n ih =>
    intro s s' hi
    rw [initSlots] at hi
    have hfr := createWithRetry_frame f fuel s
    rcases hcr : (createWithRetry f fuel s) with ⟨r, s₁⟩
    simp only [hcr] at hfr
    obtain ⟨f1, f2, f3, f4, f5, f6, f7, f8, f9⟩ := hfr
    rw [hcr] at hi
    rcases r with _ | c
    · simp at hi
    · dsimp only at hi
      obtain ⟨g1, g2, g3, g4, g5, g6, g7, g8, g9⟩ := ih _ _ hi
      refine ⟨by rw [g1]; simpa using f2, by rw [g2]; simpa using f3,
        by rw [g3]; simpa using f4, by rw [g4]; simpa using f5,
        by rw [g5]; simpa using f6, by rw [g6]; simpa using f7,
        by simp at g7; omega, by simp at g8; omega, ?_⟩
      simp [f1] at g9
      omega

/-! ### The configuration is never modified -/

theorem Get_Config (f : Factory) (t : Nat) (od : Bool) (s : PoolState) :
    (Get f t od s).2.2.Config = s.Config := by
  rcases hs : s.slots with _ | ⟨c, rest⟩
  · rcases od with _ | _
    · simp [Get, hs]
    · rcases hcall : f s.Config s.calls with _ | _
      · simp [Get, hs, callFactory_false f s hcall]
      · simp [Get, hs, callFactory_true f s hcall]
  · simp [Get, hs]

theorem Release_Config (h : Connection) (s : PoolState) :
    (Release h s).Config = s.Config := by
  by_cases hod : h.connId ∈ s.odBorrowed
  · simp [Release, hod]
  · by_cases hbad : h.IsBad <;> simp [Release, hod, hbad]

theorem replaceStep_Config (f : Factory) (fuel : Nat) (s : PoolState) :
    (replaceStep f fuel s).Config = s.Config := by
  by_cases hp : s.pending = 0
  · simp [replaceStep, hp]
  · simp only [replaceStep, if_neg hp]
    have hfr := createWithRetry_frame f fuel s
    rcases hcr : createWithRetry f fuel s with ⟨r, s₁⟩
    simp only [hcr] at hfr
    rcases r with _ | c
    · exact hfr.2.2.2.2.2.2.1
    · simpa using hfr.2.2.2.2.2.2.1

theorem Close_Config (s : PoolState) : (Close s).Config = s.Config := by
  simp [Close]

theorem step_Config (f : Factory) (s s' : PoolState) (hstep : Step f s s') :
    s'.Config = s.Config := by
  cases hstep with
  | get t od s => exact Get_Config f t od s
  | release h s hmem => exact Release_Config h s
  | replace fuel s => exact replaceStep_Config f fuel s
  | close s => exact Close_Config s
  | init fuel s s' hi => exact (initSlots_frame f fuel s.Config.Size s s' hi).2.2.2.2.2.1

theorem steps_Config (f : Factory) (s s' : PoolState) (hsteps : Steps f s s') :
    s'.Config = s.Config := by
  induction hsteps with
  | refl => rfl
  | tail _ hstep ih => exact (step_Config f _ _ hstep).trans ih

/-! ### Every factory invocation receives the pool's configuration -/

theorem callFactory_ArgsOK (f : Factory) (cfg : Config) (s : PoolState)
    (h : ArgsOK cfg s) : ArgsOK cfg (callFactory f s).2 := by
  obtain ⟨h1, h2, h3⟩ := h
  have hargs : ∀ a ∈ s.callArgs ++ [s.Config], a = cfg := by
    intro a ha
    rcases List.mem_append.mp ha with h4 | h5
    · exact h3 a h4
    · simp at h5
      rw [h5, h1]
  rcases hcall : f s.Config s.calls with _ | _
  · rw [callFactory_false f s hcall]
    exact ⟨h1, by simp [h2], hargs⟩
  · rw [callFactory_true f s hcall]
    exact ⟨h1, by simp [h2], hargs⟩

theorem createWithRetry_ArgsOK (f : Factory) (cfg : Config) (fuel : Nat) :
    ∀ s, ArgsOK cfg s → ArgsOK cfg (createWithRetry f fuel s).2 := by
  induction fuel with
  | zero => intro s h; simpa [createWithRetry] using h
  | succ n ih =>
    intro s h
    rw [createWithRetry]
    have hcf := callFactory_ArgsOK f cfg s h
    rcases hcall : callFactory f s with ⟨r, s₁⟩
    rw [hcall] at hcf
    rcases r with _ | c
    · exact ih s₁ hcf
    · exact hcf

theorem initSlots_ArgsOK (f : Factory) (cfg : Config) (fuel : Nat) (n : Nat) :
    ∀ s s', initSlots f fuel n s = some s' → ArgsOK cfg s → ArgsOK cfg s' := by
  induction n with
  | zero =>
    intro s s' hi h
    simp only [initSlots, Option.some.injEq] at hi
    rw [← hi]
    exact h
  | succ n ih =>
    intro s s' hi h
    rw [initSlots] at hi
    have hcr' := createWithRetry_ArgsOK f cfg fuel s h
    rcases hcr : createWithRetry f fuel s with ⟨r, s₁⟩
    rw [hcr] at hi hcr'
    rcases r with _ | c
    · simp at hi
    · dsimp only at hi
      refine ih _ _ hi ?_
      exact ⟨hcr'.1, by simpa using hcr'.2.1, hcr'.2.2⟩

theorem Get_ArgsOK (f : Factory) (cfg : Config) (t : Nat) (od : Bool)
    (s : PoolState) (h : ArgsOK cfg s) : ArgsOK cfg (Get f t od s).2.2 := by
  rcases hs : s.slots with _ | ⟨c, rest⟩
  · rcases od with _ | _
    · simp only [Get, hs, Bool.false_eq_true, if_false]
      exact ⟨h.1, h.2.1, h.2.2⟩
    · simp only [Get, hs, if_true]
      have hcf := callFactory_ArgsOK f cfg s h
      rcases hcall : callFactory f s with ⟨r, s₁⟩
      rw [hcall] at hcf
      rcases r with _ | c
      · exact hcf
      · exact ⟨hcf.1, by simpa using hcf.2.1, hcf.2.2⟩
  · simp only [Get, hs]
    exact ⟨h.1, h.2.1, h.2.2⟩

theorem Release_ArgsOK (h : Connection) (cfg : Config) (s : PoolState)
    (ha : ArgsOK cfg s) : ArgsOK cfg (Release h s) := by
  by_cases hod : h.connId ∈ s.odBorrowed
  · simp only [Release, if_pos hod]
    exact ⟨ha.1, ha.2.1, ha.2.2⟩
  · by_cases hbad : h.IsBad
    · simp only [Release, if_neg hod, if_pos hbad]
      exact ⟨ha.1, ha.2.1, ha.2.2⟩
    · simp only [Release, if_neg hod, if_neg hbad]
      exact ⟨ha.1, ha.2.1, ha.2.2⟩

theorem replaceStep_ArgsOK (f : Factory) (cfg : Config) (fuel : Nat)
    (s : PoolState) (h : ArgsOK cfg s) : ArgsOK cfg (replaceStep f fuel s) := by
  by_cases hp : s.pending = 0
  · simpa [replaceStep, hp] using h
  · simp only [replaceStep, if_neg hp]
    have hcr' := createWithRetry_ArgsOK f cfg fuel s h
    rcases hcr : createWithRetry f fuel s with ⟨r, s₁⟩
    rw [hcr] at hcr'
    rcases r with _ | c
    · exact hcr'
    · exact ⟨hcr'.1, by simpa using hcr'.2.1, hcr'.2.2⟩

theorem Close_ArgsOK (cfg : Config) (s : PoolState) (h : ArgsOK cfg s) :
    ArgsOK cfg (Close s) :=
  ⟨h.1, h.2.1, h.2.2⟩

theorem step_ArgsOK (f : Factory) (cfg : Config) (s s' : PoolState)
    (hstep : Step f s s') (h : ArgsOK cfg s) : ArgsOK cfg s' := by
  cases hstep with
  | get t od s => exact Get_ArgsOK f cfg t od s h
  | release h0 s hmem => exact Release_ArgsOK h0 cfg s h
  | replace fuel s => exact replaceStep_ArgsOK f cfg fuel s h
  | close s => exact Close_ArgsOK cfg s h
  | init fuel s s' hi => exact initSlots_ArgsOK f cfg fuel s.Config.Size s s' hi h

theorem steps_ArgsOK (f : Factory) (cfg : Config) (s s' : PoolState)
    (hsteps : Steps f s s') (h : ArgsOK cfg s) : ArgsOK cfg s' := by
  induction hsteps with
  | refl => exact h
  | tail _ hstep ih => exact step_ArgsOK f cfg _ _ hstep ih

/-! ### The capacity sum -/

theorem capacity_Get (f : Factory) (t : Nat) (od : Bool) (s : PoolState) :
    capacity (Get f t od s).2.2 = capacity s := by
  rcases hs : s.slots with _ | ⟨c, rest⟩
  · rcases od with _ | _
    · simp [Get, hs, capacity]
    · simp only [Get, hs, if_true]
      have hfr := createWithRetry_frame f 1 s
      rcases hcall : f s.Config s.calls with _ | _
      · simp [callFactory_false f s hcall, capacity]
      · simp [callFactory_true f s hcall, capacity]
  · simp [Get, hs, capacity]
    omega

theorem capacity_Release (h : Connection) (s : PoolState)
    (hmem : h.connId ∈ s.borrowed ∨ h.connId ∈ s.odBorrowed) :
    capacity (Release h s) = capacity s := by
  by_cases hod : h.connId ∈ s.odBorrowed
  · simp [Release, hod, capacity]
  · have hb : h.connId ∈ s.borrowed := hmem.resolve_right hod
    have hlen := List.length_erase_of_mem hb
    have hpos : 0 < s.borrowed.length := List.length_pos.mpr (List.ne_nil_of_mem hb)
    by_cases hbad : h.IsBad
    · simp [Release, hod, hbad, capacity]
      omega
    · simp [Release, hod, hbad, capacity]
      omega

theorem capacity_replaceStep (f : Factory) (fuel : Nat) (s : PoolState) :
    capacity (replaceStep f fuel s) = capacity s := by
  by_cases hp : s.pending = 0
  · simp [replaceStep, hp]
  · simp only [replaceStep, if_neg hp]
    have hfr := createWithRetry_frame f fuel s
    rcases hcr : createWithRetry f fuel s with ⟨r, s₁⟩
    simp only [hcr] at hfr
    obtain ⟨f1, f2, f3, f4, f5, f6, f7, f8, f9⟩ := hfr
    rcases r with _ | c
    · simp [capacity, f1, f2, f4]
    · simp [capacity, f1, f2, f4]
      omega

theorem capacity_Init (f : Factory) (fuel : Nat) (cfg : Config)
    (s0 : PoolState) (hinit : Init f fuel (NewPool cfg) = some s0) :
    capacity s0 = cfg.Size := by
  obtain ⟨f1, f2, f3, f4, f5, f6, f7, f8, f9⟩ :=
    initSlots_frame f fuel (NewPool cfg).Config.Size _ _ hinit
  simp [NewPool] at f1 f3 f9
  simp [capacity, f1, f3, f9]

/-! ### Discarded connections never come back -/

theorem Dead_insert_fresh (s : PoolState) (c : Connection) (s₂ : PoolState)
    (h : Connection) (hs : s₂.slots = s.slots ++ [c]) (hb : s₂.borrowed = s.borrowed)
    (ho : s₂.odBorrowed = s.odBorrowed) (hn : s.nextId ≤ s₂.nextId)
    (hfresh : s.nextId ≤ c.connId) (hd : Dead h s) : Dead h s₂ := by
  obtain ⟨hne, hlt⟩ := hd
  have hperm : (poolIds s₂).Perm (c.connId :: poolIds s) := by
    simp only [poolIds, hs, hb, ho, List.map_append, List.map_cons, List.map_nil]
    exact append_slot_perm _ _ _ _
  refine ⟨?_, by omega⟩
  intro i hi
  rcases List.mem_cons.mp (hperm.mem_iff.mp hi) with rfl | hmem
  · omega
  · exact hne i hmem

theorem Dead_Get (f : Factory) (t : Nat) (od : Bool) (s : PoolState)
    (h : Connection) (hd : Dead h s) : Dead h (Get f t od s).2.2 := by
  obtain ⟨hne, hlt⟩ := hd
  rcases hs : s.slots with _ | ⟨c, rest⟩
  · rcases od with _ | _
    · simp only [Get, hs, Bool.false_eq_true, if_false]
      exact ⟨by simpa [poolIds, hs] using hne, hlt⟩
    · simp only [Get, hs, if_true]
      rcases hcall : f s.Config s.calls with _ | _
      · rw [callFactory_false f s hcall]
        exact ⟨by simpa [poolIds, hs] using hne, hlt⟩
      · rw [callFactory_true f s hcall]
        dsimp only
        refine ⟨?_, by simpa using Nat.lt_succ_of_lt hlt⟩
        intro i hi
        have hsplit : i ∈ poolIds s ∨ i = s.nextId := by
          simp only [poolIds, hs, List.map_nil, List.nil_append, List.mem_append,
            List.mem_singleton] at hi ⊢
          tauto
        rcases hsplit with hmem | rfl
        · exact hne i hmem
        · omega
  · simp only [Get, hs]
    refine ⟨?_, hlt⟩
    intro i hi
    apply hne
    simp only [poolIds, hs, List.map_cons, List.cons_append, List.mem_cons,
      List.mem_append, List.mem_singleton] at hi ⊢
    tauto

theorem Dead_Release (h' : Connection) (s : PoolState) (h : Connection)
    (hmem : h'.connId ∈ s.borrowed ∨ h'.connId ∈ s.odBorrowed)
    (hd : Dead h s) : Dead h (Release h' s) := by
  obtain ⟨hne, hlt⟩ := hd
  by_cases hod : h'.connId ∈ s.odBorrowed
  · simp only [Release, if_pos hod]
    have hsub : (poolIds { s with odBorrowed := s.odBorrowed.erase h'.connId
                                  closedConns := s.closedConns ++ [h'.connId] }).Sublist
        (poolIds s) := by
      simp only [poolIds]
      exact (List.append_sublist_append_left _).mpr (List.erase_sublist _ _)
    exact ⟨fun i hi => hne i (hsub.mem hi), hlt⟩
  · have hb : h'.connId ∈ s.borrowed := hmem.resolve_right hod
    by_cases hbad : h'.IsBad
    · simp only [Release, if_neg hod, if_pos hbad]
      have hsub : (poolIds { s with borrowed := s.borrowed.erase h'.connId
                                    closedConns := s.closedConns ++ [h'.connId]
                                    pending := s.pending + 1 }).Sublist (poolIds s) := by
        simp only [poolIds]
        exact List.Sublist.append_right
          ((List.append_sublist_append_left _).mpr (List.erase_sublist _ _)) _
      exact ⟨fun i hi => hne i (hsub.mem hi), hlt⟩
    · simp only [Release, if_neg hod, if_neg hbad]
      refine ⟨?_, hlt⟩
      intro i hi
      have hperm := append_slot_perm (s.slots.map Connection.connId)
        (s.borrowed.erase h'.connId) s.odBorrowed h'.connId
      have hi2 : i ∈ h'.connId :: ((s.slots.map Connection.connId
          ++ s.borrowed.erase h'.connId) ++ s.odBorrowed) := by
        refine hperm.mem_iff.mp ?_
        simpa [poolIds] using hi
      rcases List.mem_cons.mp hi2 with rfl | hmem2
      · exact hne _ (by simp only [poolIds]; simp [List.mem_append]; tauto)
      · apply hne
        have hsub2 : ((s.slots.map Connection.connId ++ s.borrowed.erase h'.connId)
            ++ s.odBorrowed).Sublist (poolIds s) := by
          simp only [poolIds]
          exact List.Sublist.append_right
            ((List.append_sublist_append_left _).mpr (List.erase_sublist _ _)) _
        exact hsub2.mem hmem2

theorem Dead_replaceStep (f : Factory) (fuel : Nat) (s : PoolState)
    (h : Connection) (hd : Dead h s) : Dead h (replaceStep f fuel s) := by
  by_cases hp : s.pending = 0
  · simpa [replaceStep, hp] using hd
  · obtain ⟨hne, hlt⟩ := hd
    simp only [replaceStep, if_neg hp]
    have hfr := createWithRetry_frame f fuel s
    rcases hcr : createWithRetry f fuel s with ⟨r, s₁⟩
    simp only [hcr] at hfr
    obtain ⟨f1, f2, f3, f4, f5, f6, f7, f8, f9⟩ := hfr
    rcases r with _ | c
    · dsimp only
      refine ⟨?_, by omega⟩
      intro i hi
      exact hne i (by simpa [poolIds, f1, f2, f3] using hi)
    · dsimp only
      have hsome := createWithRetry_some f fuel s c (by rw [hcr])
      simp only [hcr] at hsome
      obtain ⟨c1, c2, c3, c4⟩ := hsome
      exact Dead_insert_fresh s c _ h (by simp [f1]) (by simp [f2]) (by simp [f3])
        (by simpa using f8) c2 ⟨hne, hlt⟩

theorem Dead_Close (s : PoolState) (h : Connection) (hd : Dead h s) :
    Dead h (Close s) := by
  obtain ⟨hne, hlt⟩ := hd
  have hsub : (poolIds (Close s)).Sublist (poolIds s) := by
    simp only [poolIds, Close, List.map_nil, List.nil_append]
    exact List.Sublist.append_right (List.sublist_append_right _ _) _
  exact ⟨fun i hi => hne i (hsub.mem hi), hlt⟩

theorem Dead_initSlots (f : Factory) (fuel : Nat) (n : Nat) (h : Connection) :
    ∀ s s', initSlots f fuel n s = some s' → Dead h s → Dead h s' := by
  induction n with
  | zero =>
    intro s s' hi hd
    simp only [initSlots, Option.some.injEq] at hi
    rw [← hi]
    exact hd
  | succ n ih =>
    intro s s' hi hd
    rw [initSlots] at hi
    have hfr := createWithRetry_frame f fuel s
    rcases hcr : createWithRetry f fuel s with ⟨r, s₁⟩
    simp only [hcr] at hfr
    obtain ⟨f1, f2, f3, f4, f5, f6, f7, f8, f9⟩ := hfr
    rw [hcr] at hi
    rcases r with _ | c
    · simp at hi
    · have hsome := createWithRetry_some f fuel s c (by rw [hcr])
      simp only [hcr] at hsome
      obtain ⟨c1, c2, c3, c4⟩ := hsome
      dsimp only at hi
      refine ih _ _ hi ?_
      exact Dead_insert_fresh s c _ h (by simp [f1]) (by simp [f2]) (by simp [f3])
        (by simpa using f8) c2 hd

theorem step_preserves_Dead (f : Factory) (s s' : PoolState) (h : Connection)
    (hstep : Step f s s') (hd : Dead h s) : Dead h s' := by
  cases hstep with
  | get t od s => exact Dead_Get f t od s h hd
  | release h0 s hmem => exact Dead_Release h0 s h hmem hd
  | replace fuel s => exact Dead_replaceStep f fuel s h hd
  | close s => exact Dead_Close s h hd
  | init fuel s s' hi => exact Dead_initSlots f fuel s.Config.Size h s s' hi hd

theorem steps_preserves_Dead (f : Factory) (s s' : PoolState) (h : Connection)
    (hsteps : Steps f s s') (hd : Dead h s) : Dead h s' := by
  induction hsteps with
  | refl => exact hd
  | tail _ hstep ih => exact step_preserves_Dead f _ _ h hstep ih

/-- From a state where a connection is dead, no `Get` can return a handle
carrying its id. -/
theorem Dead_Get_ne (f : Factory) (t : Nat) (od : Bool) (s : PoolState)
    (h c : Connection) (hd : Dead h s) (hc : (Get f t od s).1 = some c) :
    c.connId ≠ h.connId := by
  obtain ⟨hne, hlt⟩ := hd
  rcases hs : s.slots with _ | ⟨c0, rest⟩
  · rcases od with _ | _
    · simp [Get, hs] at hc
    · simp only [Get, hs, if_true] at hc
      rcases hcall : f s.Config s.calls with _ | _
      · rw [callFactory_false f s hcall] at hc
        simp at hc
      · rw [callFactory_true f s hcall] at hc
        simp at hc
        rw [← hc]
        simp
        omega
  · simp only [Get, hs] at hc
    simp at hc
    rw [← hc]
    refine hne c0.connId ?_
    simp only [poolIds, hs]
    simp

/-- Releasing a borrowed bad handle kills its underlying connection: in
the resulting state no tracked handle carries its id. -/
theorem Release_bad_Dead (h : Connection) (s : PoolState) (hinv : Inv s)
    (hb : h.connId ∈ s.borrowed) (hbad : h.IsBad = true) :
    Dead h (Release h s) := by
  obtain ⟨hnd, hlt, hgood⟩ := hinv
  have hnd2 := hnd
  simp only [poolIds] at hnd2
  rw [List.nodup_append] at hnd2
  obtain ⟨hnd3, hndod, hdisj1⟩ := hnd2
  rw [List.nodup_append] at hnd3
  obtain ⟨hndsl, hndb, hdisj2⟩ := hnd3
  have hod : h.connId ∉ s.odBorrowed := fun hh =>
    hdisj1 (List.mem_append.mpr (Or.inr hb)) hh
  simp only [Release, if_neg hod, if_pos hbad]
  refine ⟨?_, hlt h.connId (by simp only [poolIds]; simp [hb])⟩
  intro i hi
  simp only [poolIds] at hi
  simp only [List.mem_append] at hi
  rcases hi with (h1 | h2) | h3
  · intro heq
    exact hdisj2 (heq ▸ h1) hb
  · intro heq
    rw [heq] at h2
    exact hndb.not_mem_erase h2
  · intro heq
    exact hdisj1 (List.mem_append.mpr (Or.inr hb)) (heq ▸ h3)


/-! ### Sequential borrowing -/

theorem getSeq_spec (f : Factory) (t : Nat) (n : Nat) :
    ∀ s, n ≤ s.slots.length →
    (∀ r ∈ (getSeq f t n s).1, r.1.isSome ∧ r.2 = none) ∧
    (getSeq f t n s).1.length = n ∧
    (getSeq f t n s).2 =
      { s with slots := s.slots.drop n
               borrowed := s.borrowed ++ (s.slots.take n).map Connection.connId } := by
  induction n with
  | zero =>
    intro s h
    refine ⟨by simp [getSeq], by simp [getSeq], by simp [getSeq]⟩
  | succ n ih =>
    intro s h
    rcases hs : s.slots with _ | ⟨c, rest⟩
    · rw [hs] at h
      simp at h
    · have hGet : Get f t false s = (some c, none,
          { s with slots := rest, borrowed := s.borrowed ++ [c.connId] }) := by
        simp [Get, hs]
      have hlen : n ≤ rest.length := by
        rw [hs] at h
        simpa using h
      obtain ⟨ih1, ih2, ih3⟩ := ih
        { s with slots := rest, borrowed := s.borrowed ++ [c.connId] } (by simpa using hlen)
      rw [getSeq]
      simp only [hGet]
      refine ⟨?_, by simpa using ih2, ?_⟩
      · intro r hr
        rcases List.mem_cons.mp hr with rfl | hmem
        · simp
        · exact ih1 r hmem
      · rw [ih3]
        simp [PoolState.mk.injEq, hs, List.append_assoc]


/-! ### The state at the moment the `Init` completion signal fires -/

theorem Init_def (f : Factory) (fuel : Nat) (cfg : Config) :
    Init f fuel (NewPool cfg) = initSlots f fuel cfg.Size (NewPool cfg) := rfl

theorem Init_alwaysTrue (cfg : Config) (f : Factory) (fuel : Nat)
    (hf : ∀ c i, f c i = true) (hfuel : 1 ≤ fuel) :
    Init f fuel (NewPool cfg) = some
      { calls := cfg.Size
        callArgs := List.replicate cfg.Size cfg
        nextId := cfg.Size
        slots := (List.range cfg.Size).map (fun i => Connection.mk i false)
        borrowed := []
        odBorrowed := []
        pending := 0
        closedConns := []
        poolClosed := false
        now := 0
        Config := cfg } := by
  rw [Init_def]
  rw [initSlots_alwaysTrue f hf fuel hfuel cfg.Size (NewPool cfg)]
  simp [NewPool]


/-! ## The claims -/

/-- C1: for every configured size `N` with a factory that always succeeds,
once the completion signal returned by `Init` fires, the factory has been
invoked — each invocation succeeding — exactly `N` times, and exactly `N`
connection handles are available in the pool's slots. -/
theorem init_creates_connections (cfg : Config) (f : Factory) (fuel : Nat)
    (hf : ∀ c i, f c i = true) (hfuel : 1 ≤ fuel) :
    ∃ s, Init f fuel (NewPool cfg) = some s ∧
      s.calls = cfg.Size ∧ s.slots.length = cfg.Size := by
  refine ⟨_, Init_alwaysTrue cfg f fuel hf hfuel, by simp, by simp⟩

theorem init_creates_connections_witness :
    ∃ s, Init (fun _ _ => true) 1
        (NewPool ⟨"lutron", 5, "192.168.0.10:23", 10⟩) = some s ∧
      s.calls = 5 ∧ s.slots.length = 5 :=
  init_creates_connections ⟨"lutron", 5, "192.168.0.10:23", 10⟩
    (fun _ _ => true) 1 (fun _ _ => rfl) (Nat.le_refl 1)

/-- C2: if the factory fails on its first `k` invocations and succeeds on
invocation `k + 1`, then for a pool of size 1 the completion signal of
`Init` fires only after exactly `k + 1` factory invocations — with at most
`k` attempts available the population loop is still retrying and the signal
has not fired — and `k` is arbitrary: the same slot is retried
indefinitely, with no maximum retry count, waiting `RetryDuration` between
consecutive failing attempts. -/
theorem pool_keeps_trying (cfg : Config) (f : Factory) (k fuel : Nat)
    (hsize : cfg.Size = 1)
    (hfail : ∀ i, i < k → f cfg i = false) (hsucc : f cfg k = true)
    (hfuel : k + 1 ≤ fuel) :
    (∃ s, Init f fuel (NewPool cfg) = some s ∧ s.calls = k + 1 ∧
      s.slots.length = 1 ∧ s.now = k * cfg.RetryDuration) ∧
    (∀ fuel', fuel' ≤ k → Init f fuel' (NewPool cfg) = none) := by
  constructor
  · rw [Init_def, hsize, initSlots]
    rw [createWithRetry_firstSuccess f k fuel (NewPool cfg)
      (by intro i hi; simpa [NewPool] using hfail i hi)
      (by simpa [NewPool] using hsucc) hfuel]
    dsimp only
    rw [initSlots]
    refine ⟨_, rfl, by simp [NewPool], by simp [NewPool], by simp [NewPool]⟩
  · intro fuel' hle
    rw [Init_def, hsize, initSlots]
    have hnone := createWithRetry_allFail f fuel' (NewPool cfg)
      (by intro i hi; exact (by simpa [NewPool] using hfail i (by omega)))
    rcases hcr : createWithRetry f fuel' (NewPool cfg) with ⟨r, s₁⟩
    rw [hcr] at hnone
    simp only at hnone
    rw [hnone]

theorem pool_keeps_trying_witness :
    (∃ s, Init (fun _ i => decide (4 ≤ i)) 5
        (NewPool ⟨"p", 1, "addr", 7⟩) = some s ∧ s.calls = 5 ∧
      s.slots.length = 1 ∧ s.now = 4 * 7) ∧
    (∀ fuel', fuel' ≤ 4 →
      Init (fun _ i => decide (4 ≤ i)) fuel' (NewPool ⟨"p", 1, "addr", 7⟩) = none) :=
  pool_keeps_trying ⟨"p", 1, "addr", 7⟩ (fun _ i => decide (4 ≤ i)) 4 5 rfl
    (by decide) (by decide) (by decide)


/-- C3: with configured size `N`, after `Init` completes, `N` sequential
`Get` calls (onDemand unset) all succeed with a handle and no error; the
`(N + 1)`-th `Get`, with timeout `t2`, returns no handle and the stable
`ErrTimeout` sentinel, changes nothing in the pool state but the clock, and
its elapsed time is at least the requested timeout. -/
theorem get_errs_on_timeout (cfg : Config) (f : Factory) (fuel t1 t2 : Nat)
    (s0 : PoolState) (hf : ∀ c i, f c i = true) (hfuel : 1 ≤ fuel)
    (hinit : Init f fuel (NewPool cfg) = some s0) :
    (∀ r ∈ (getSeq f t1 cfg.Size s0).1, r.1.isSome ∧ r.2 = none) ∧
    (getSeq f t1 cfg.Size s0).1.length = cfg.Size ∧
    Get f t2 false (getSeq f t1 cfg.Size s0).2 =
      (none, some GetError.ErrTimeout,
        { (getSeq f t1 cfg.Size s0).2 with
            now := (getSeq f t1 cfg.Size s0).2.now + t2 }) ∧
    t2 ≤ (Get f t2 false (getSeq f t1 cfg.Size s0).2).2.2.now
      - (getSeq f t1 cfg.Size s0).2.now := by
  rw [Init_alwaysTrue cfg f fuel hf hfuel] at hinit
  obtain rfl := Option.some.inj hinit
  obtain ⟨g1, g2, g3⟩ := getSeq_spec f t1 cfg.Size
    { calls := cfg.Size
      callArgs := List.replicate cfg.Size cfg
      nextId := cfg.Size
      slots := (List.range cfg.Size).map (fun i => Connection.mk i false)
      borrowed := []
      odBorrowed := []
      pending := 0
      closedConns := []
      poolClosed := false
      now := 0
      Config := cfg } (by simp)
  have hdrop : ((List.range cfg.Size).map (fun i => Connection.mk i false)).drop
      cfg.Size = [] := by
    apply List.drop_eq_nil_of_le
    simp
  refine ⟨g1, g2, ?_, ?_⟩
  · rw [g3]
    simp [Get, hdrop]
  · rw [g3]
    simp [Get, hdrop]


theorem get_errs_on_timeout_witness :
    (∀ r ∈ (getSeq fTrueW 7 cfgW3.Size s0W3).1, r.1.isSome ∧ r.2 = none) ∧
    (getSeq fTrueW 7 cfgW3.Size s0W3).1.length = cfgW3.Size ∧
    Get fTrueW 1 false (getSeq fTrueW 7 cfgW3.Size s0W3).2 =
      (none, some GetError.ErrTimeout,
        { (getSeq fTrueW 7 cfgW3.Size s0W3).2 with
            now := (getSeq fTrueW 7 cfgW3.Size s0W3).2.now + 1 }) ∧
    1 ≤ (Get fTrueW 1 false (getSeq fTrueW 7 cfgW3.Size s0W3).2).2.2.now
      - (getSeq fTrueW 7 cfgW3.Size s0W3).2.now :=
  get_errs_on_timeout cfgW3 fTrueW 1 7 1 s0W3 (fun _ _ => rfl) (Nat.le_refl 1)
    (by decide)

/-- C4: for a pool of size 1, the handle obtained by `Get`, released with
its `IsBad` flag false, is the exact same handle returned by the next
`Get` — release followed by get is a round-trip identity on the handle. -/
theorem release_get_roundtrip (cfg : Config) (f : Factory)
    (fuel t1 t2 : Nat) (s0 : PoolState) (hsize : cfg.Size = 1)
    (hf : ∀ c i, f c i = true) (hfuel : 1 ≤ fuel)
    (hinit : Init f fuel (NewPool cfg) = some s0) :
    ∃ h, (Get f t1 false s0).1 = some h ∧ h.IsBad = false ∧
      (Get f t2 false (Release h (Get f t1 false s0).2.2)).1 = some h := by
  rw [Init_alwaysTrue cfg f fuel hf hfuel] at hinit
  obtain rfl := Option.some.inj hinit
  rw [hsize]
  refine ⟨⟨0, false⟩, ?_, rfl, ?_⟩
  · simp [Get, List.range_succ]
  · simp [Get, Release, List.range_succ]

theorem release_get_roundtrip_witness :
    ∃ h, (Get fTrueW 4 false s0W1).1 = some h ∧ h.IsBad = false ∧
      (Get fTrueW 6 false (Release h (Get fTrueW 4 false s0W1).2.2)).1 = some h :=
  release_get_roundtrip cfgW1 fTrueW 1 4 6 s0W1 rfl (fun _ _ => rfl)
    (Nat.le_refl 1) (by decide)


/-- C5: a handle whose `IsBad` flag is set when released is never returned
by any subsequent `Get` (its id differs from every handle any later `Get`
can hand out); its underlying connection is closed; the pool still holds no
handle with its id in slots; an asynchronous replacement begins; a
completed replacement has invoked the factory again and inserted a
distinct, fresh handle; and in every reachable state no handle with
`IsBad = true` sits in slots. -/
theorem bad_connection_not_returned (f : Factory) (s : PoolState)
    (h : Connection) (hinv : Inv s) (hb : h.connId ∈ s.borrowed)
    (hbad : h.IsBad = true) :
    h.connId ∈ (Release h s).closedConns ∧
    (∀ c ∈ (Release h s).slots, c.connId ≠ h.connId) ∧
    (Release h s).pending = s.pending + 1 ∧
    (∀ s₁, Steps f (Release h s) s₁ →
      ∀ t od c, (Get f t od s₁).1 = some c → c.connId ≠ h.connId) ∧
    (∀ fl, 1 ≤ fl → f s.Config s.calls = true →
      (replaceStep f fl (Release h s)).calls = s.calls + 1 ∧
      ∃ c, c ∈ (replaceStep f fl (Release h s)).slots ∧
        c.connId ≠ h.connId ∧ c.IsBad = false) ∧
    (∀ s₁, Steps f s s₁ → ∀ c ∈ s₁.slots, c.IsBad = false) := by
  have hnd2 := hinv.1
  simp only [poolIds] at hnd2
  rw [List.nodup_append] at hnd2
  obtain ⟨hnd3, hndod, hdisj1⟩ := hnd2
  have hod : h.connId ∉ s.odBorrowed := fun hh =>
    hdisj1 (List.mem_append.mpr (Or.inr hb)) hh
  have hR : Release h s = { s with borrowed := s.borrowed.erase h.connId
                                   closedConns := s.closedConns ++ [h.connId]
                                   pending := s.pending + 1 } := by
    simp only [Release, if_neg hod, if_pos hbad]
  have hdead : Dead h (Release h s) := Release_bad_Dead h s hinv hb hbad
  refine ⟨?_, ?_, ?_, ?_, ?_, ?_⟩
  · rw [hR]
    simp
  · intro c hc
    rw [hR] at hc
    refine hdead.1 c.connId ?_
    rw [hR]
    simp only [poolIds]
    simp only [List.mem_append, List.mem_map]
    exact Or.inl (Or.inl ⟨c, by simpa using hc, rfl⟩)
  · rw [hR]
  · intro s₁ hsteps t od c hc
    exact Dead_Get_ne f t od s₁ h c (steps_preserves_Dead f _ _ h hsteps hdead) hc
  · intro fl hfl hsucc
    have hcfg : (Release h s).Config = s.Config := by rw [hR]
    have hcalls : (Release h s).calls = s.calls := by rw [hR]
    have hnext : (Release h s).nextId = s.nextId := by rw [hR]
    have hcr := createWithRetry_firstSuccess f 0 fl (Release h s)
      (by intro i hi; omega) (by rw [hcfg, hcalls]; simpa using hsucc) (by omega)
    have hpend : ¬(Release h s).pending = 0 := by rw [hR]; simp
    constructor
    · simp only [replaceStep, if_neg hpend, hcr]
      simp [hcalls]
    · refine ⟨⟨(Release h s).nextId, false⟩, ?_, ?_, rfl⟩
      · simp only [replaceStep, if_neg hpend, hcr]
        simp
      · rw [hnext]
        have := hinv.2.1 h.connId
          (by simp only [poolIds]; simp only [List.mem_append]; exact Or.inl (Or.inr hb))
        simp only [ne_eq]
        omega
  · intro s₁ hsteps c hc
    exact (steps_preserves_Inv f s s₁ hsteps hinv).2.2 c hc


theorem bad_connection_not_returned_witness :
    Inv s1W1 ∧
    ((0 : Nat) ∈ (Release ⟨0, true⟩ s1W1).closedConns ∧
    (∀ c ∈ (Release ⟨0, true⟩ s1W1).slots, c.connId ≠ 0) ∧
    (Release ⟨0, true⟩ s1W1).pending = s1W1.pending + 1 ∧
    (∀ s₁, Steps fTrueW (Release ⟨0, true⟩ s1W1) s₁ →
      ∀ t od c, (Get fTrueW t od s₁).1 = some c → c.connId ≠ 0) ∧
    (∀ fl, 1 ≤ fl → fTrueW s1W1.Config s1W1.calls = true →
      (replaceStep fTrueW fl (Release ⟨0, true⟩ s1W1)).calls = s1W1.calls + 1 ∧
      ∃ c, c ∈ (replaceStep fTrueW fl (Release ⟨0, true⟩ s1W1)).slots ∧
        c.connId ≠ 0 ∧ c.IsBad = false) ∧
    (∀ s₁, Steps fTrueW s1W1 s₁ → ∀ c ∈ s₁.slots, c.IsBad = false)) :=
  ⟨⟨by decide, by decide, by decide⟩,
    bad_connection_not_returned fTrueW s1W1 ⟨0, true⟩
      ⟨by decide, by decide, by decide⟩ (by decide) rfl⟩


/-- C6: for every size `N`, `Close` after a completed `Init` closes exactly
the `N` pooled connections — their ids, pairwise distinct, so each is
closed exactly once — and performs zero additional factory invocations. -/
theorem close_closes_all (cfg : Config) (f : Factory) (fuel : Nat)
    (s0 : PoolState) (hinit : Init f fuel (NewPool cfg) = some s0) :
    (Close s0).calls = s0.calls ∧
    (Close s0).closedConns = s0.slots.map Connection.connId ∧
    (Close s0).closedConns.length = cfg.Size ∧
    (Close s0).closedConns.Nodup := by
  obtain ⟨f1, f2, f3, f4, f5, f6, f7, f8, f9⟩ :=
    initSlots_frame f fuel (NewPool cfg).Config.Size _ _ hinit
  have hinv : Inv s0 :=
    initSlots_Inv f fuel (NewPool cfg).Config.Size _ _ hinit (Inv_NewPool cfg)
  have hclosed : s0.closedConns = [] := by
    rw [f4]
    simp [NewPool]
  have hnodup : (s0.slots.map Connection.connId).Nodup := by
    have h := hinv.1
    simp only [poolIds] at h
    exact h.of_append_left.of_append_left
  refine ⟨by simp [Close], by simp [Close, hclosed], ?_, by simp [Close, hclosed, hnodup]⟩
  simp [Close, hclosed]
  rw [f9]
  simp [NewPool]

theorem close_closes_all_witness :
    (Close s0W3).calls = s0W3.calls ∧
    (Close s0W3).closedConns = s0W3.slots.map Connection.connId ∧
    (Close s0W3).closedConns.length = cfgW3.Size ∧
    (Close s0W3).closedConns.Nodup :=
  close_closes_all cfgW3 fTrueW 1 s0W3 (by decide)

/-- C7: a completed `Init` establishes that handles in slots, handles
borrowed and handles lost to in-flight replacement sum to the configured
size, and every `Get`, every `Release` of an outstanding handle, and every
background replacement step preserves that sum. -/
theorem capacity_invariant (cfg : Config) (f : Factory) :
    (∀ fuel s0, Init f fuel (NewPool cfg) = some s0 → capacity s0 = cfg.Size) ∧
    (∀ s t od, capacity s = s.Config.Size →
      capacity (Get f t od s).2.2 = (Get f t od s).2.2.Config.Size) ∧
    (∀ s h, h.connId ∈ s.borrowed ∨ h.connId ∈ s.odBorrowed →
      capacity s = s.Config.Size →
      capacity (Release h s) = (Release h s).Config.Size) ∧
    (∀ s fl, capacity s = s.Config.Size →
      capacity (replaceStep f fl s) = (replaceStep f fl s).Config.Size) := by
  refine ⟨?_, ?_, ?_, ?_⟩
  · intro fuel s0 hinit
    exact capacity_Init f fuel cfg s0 hinit
  · intro s t od hcap
    rw [capacity_Get, Get_Config, hcap]
  · intro s h hmem hcap
    rw [capacity_Release h s hmem, Release_Config, hcap]
  · intro s fl hcap
    rw [capacity_replaceStep, replaceStep_Config, hcap]

theorem capacity_invariant_witness :
    capacity s0W3 = cfgW3.Size ∧
    capacity (Get fTrueW 5 false s0W3).2.2 = (Get fTrueW 5 false s0W3).2.2.Config.Size ∧
    capacity (Release ⟨0, true⟩ s1W1) = (Release ⟨0, true⟩ s1W1).Config.Size ∧
    capacity (replaceStep fTrueW 1 s1W1) = (replaceStep fTrueW 1 s1W1).Config.Size :=
  ⟨(capacity_invariant cfgW3 fTrueW).1 1 s0W3 (by decide),
   (capacity_invariant cfgW3 fTrueW).2.1 s0W3 5 false (by decide),
   (capacity_invariant cfgW1 fTrueW).2.2.1 s1W1 ⟨0, true⟩ (by decide) (by decide),
   (capacity_invariant cfgW1 fTrueW).2.2.2 s1W1 1 (by decide)⟩

/-- C8: in every reachable pool state no handle is simultaneously present
in slots and borrowed, and a successful `Get` only hands out a handle whose
id no caller currently holds — so no two `Get` callers ever receive the
same handle concurrently. -/
theorem handle_exclusive (cfg : Config) (f : Factory) (s : PoolState)
    (hsteps : Steps f (NewPool cfg) s) :
    (∀ c ∈ s.slots, c.connId ∉ s.borrowed) ∧
    (∀ t od c, (Get f t od s).1 = some c →
      c.connId ∉ s.borrowed ∧ c.connId ∉ s.odBorrowed) := by
  obtain ⟨hnd, hlt, hgood⟩ := reachable_Inv f cfg s hsteps
  simp only [poolIds] at hnd
  rw [List.nodup_append] at hnd
  obtain ⟨hnd1, hndod, hdisj1⟩ := hnd
  rw [List.nodup_append] at hnd1
  obtain ⟨hndsl, hndb, hdisj2⟩ := hnd1
  constructor
  · intro c hc
    exact hdisj2 (List.mem_map_of_mem _ hc)
  · intro t od c hc
    rcases hs : s.slots with _ | ⟨c0, rest⟩
    · rcases od with _ | _
      · simp [Get, hs] at hc
      · simp only [Get, hs, if_true] at hc
        rcases hcall : f s.Config s.calls with _ | _
        · rw [callFactory_false f s hcall] at hc
          simp at hc
        · rw [callFactory_true f s hcall] at hc
          simp at hc
          rw [← hc]
          constructor
          · intro hmem
            have := hlt s.nextId
              (by simp only [poolIds]; simp only [List.mem_append]; tauto)
            omega
          · intro hmem
            have := hlt s.nextId
              (by simp only [poolIds]; simp only [List.mem_append]; tauto)
            omega
    · simp only [Get, hs] at hc
      simp at hc
      rw [← hc]
      have hmap : c0.connId ∈ s.slots.map Connection.connId := by
        rw [hs]
        exact List.mem_map_of_mem _ (by simp)
      constructor
      · intro hmem
        exact hdisj2 hmap hmem
      · intro hmem
        exact hdisj1 (List.mem_append.mpr (Or.inl hmap)) hmem

theorem handle_exclusive_witness :
    (∀ c ∈ s0W3.slots, c.connId ∉ s0W3.borrowed) ∧
    (∀ t od c, (Get fTrueW t od s0W3).1 = some c →
      c.connId ∉ s0W3.borrowed ∧ c.connId ∉ s0W3.odBorrowed) :=
  handle_exclusive cfgW3 fTrueW s0W3
    (Relation.ReflTransGen.single (Step.init 1 (NewPool cfgW3) s0W3 (by decide)))

/-- C9: the configuration is immutable: `NewPool` stores it as given, and
in every state reachable by any sequence of pool operations the stored
configuration — its `Size` included — reads back unchanged. -/
theorem config_immutable (cfg : Config) (f : Factory) (s : PoolState)
    (hsteps : Steps f (NewPool cfg) s) :
    s.Config = cfg ∧ s.Config.Size = cfg.Size ∧ (NewPool cfg).Config = cfg := by
  have h := steps_Config f (NewPool cfg) s hsteps
  rw [show (NewPool cfg).Config = cfg from rfl] at h
  exact ⟨h, by rw [h], rfl⟩

theorem config_immutable_witness :
    s0W3.Config = cfgW3 ∧ s0W3.Config.Size = cfgW3.Size ∧
    (NewPool cfgW3).Config = cfgW3 :=
  config_immutable cfgW3 fTrueW s0W3
    (Relation.ReflTransGen.single (Step.init 1 (NewPool cfgW3) s0W3 (by decide)))

/-- C10: the factory's type takes the configuration as its argument (per
`config.go`, `func(Config) (net.Conn, error)`), and every invocation the
pool performs — `Init` population and bad-connection replacement alike —
passes the pool's own configuration: in every reachable state the recorded
arguments are exactly one copy of `cfg` per invocation. -/
theorem factory_receives_config (cfg : Config) (f : Factory) (s : PoolState)
    (hsteps : Steps f (NewPool cfg) s) :
    s.callArgs.length = s.calls ∧ ∀ a ∈ s.callArgs, a = cfg := by
  have h := steps_ArgsOK f cfg (NewPool cfg) s hsteps ⟨rfl, rfl, by simp [NewPool]⟩
  exact ⟨h.2.1, h.2.2⟩

theorem factory_receives_config_witness :
    s0W3.callArgs.length = s0W3.calls ∧ ∀ a ∈ s0W3.callArgs, a = cfgW3 :=
  factory_receives_config cfgW3 fTrueW s0W3
    (Relation.ReflTransGen.single (Step.init 1 (NewPool cfgW3) s0W3 (by decide)))

end Pool
